import Mathlib

/-!
Verification of the indexed FASTA reading subsystem of `src/io/fasta.rs`
(rust-bio).

The seekable byte source (`io::BufReader<R>` over a file or cursor) is
modelled as the full list of its bytes together with an explicit cursor
position.  `io::Result` values become `Except FErr` values or an explicit
`Option FErr` error field.  Rust panics (integer division or remainder by
zero, a failed `assert!`) are modelled by the distinguished constructors
`FErr.panicDivZero` and `FErr.panicAssert`, kept apart from the error values
the code itself constructs.  The two unbounded `while` loops of the source
are modelled with an explicit fuel argument; running out of fuel (constructor
`FErr.nonTermination`) models divergence and is proved unreachable under the
well-formedness hypotheses used by the theorems below.
-/

namespace Fasta

/-- Error outcomes of the indexed reader, mirroring the distinct
`io::Error` values of `fasta.rs` plus markers for Rust panics and for
divergence of a fueled loop. -/
inductive FErr where
  | outOfBounds
  | invalidRange
  | unknownSequence
  | unexpectedEof
  | malformedIndex
  | panicDivZero
  | panicAssert
  | nonTermination
  deriving DecidableEq

/-- One row of a FASTA index (`struct IndexRecord` of `fasta.rs`). -/
structure IndexRecord where
  len : Nat
  offset : Nat
  line_bases : Nat
  line_bytes : Nat
  deriving DecidableEq

/-- `Read::read_exact` on the modelled byte source: succeeds returning the
`n` bytes at position `pos`, and fails with `unexpectedEof` when fewer than
`n` bytes remain. -/
def readExact (data : List Nat) (pos n : Nat) : Except FErr (List Nat) :=
  if pos + n ≤ data.length then .ok ((data.drop pos).take n) else .error .unexpectedEof

/-- `IndexedReader::seek_to`: computes the physical byte address of logical
position `start` and returns the line cursor together with the new position
of the underlying source.  The `assert!(start <= idx.len)` and the `%` / `/`
by `idx.line_bases` are modelled by the two panic outcomes. -/
def seek_to (idx : IndexRecord) (start : Nat) : Except FErr (Nat × Nat) :=
  if ¬ start ≤ idx.len then .error .panicAssert
  else if idx.line_bases = 0 then .error .panicDivZero
  else
    let line_offset := start % idx.line_bases
    let line_start := start / idx.line_bases * idx.line_bytes
    .ok (line_offset, idx.offset + line_start + line_offset)

/-- `bases_on_line` of `IndexedReader::read_line`:
`idx.line_bases - min(idx.line_bases, *line_offset)`. -/
def basesOnLine (idx : IndexRecord) (lo : Nat) : Nat :=
  idx.line_bases - min idx.line_bases lo

/-- `bytes_to_read` of `IndexedReader::read_line`. -/
def bytesToRead (idx : IndexRecord) (lo basesLeft bufCap : Nat) : Nat :=
  if basesOnLine idx lo < basesLeft then min bufCap (idx.line_bytes - lo)
  else min bufCap basesLeft

/-- `bytes_to_keep` of `IndexedReader::read_line`. -/
def bytesToKeep (idx : IndexRecord) (lo basesLeft bufCap : Nat) : Nat :=
  if basesOnLine idx lo < basesLeft then
    min (bytesToRead idx lo basesLeft bufCap) (basesOnLine idx lo)
  else bytesToRead idx lo basesLeft bufCap

/-- The line-cursor update at the end of `IndexedReader::read_line`:
advance by the bytes read and reset to `0` on reaching `line_bytes`. -/
def nextLineOffset (idx : IndexRecord) (lo btr : Nat) : Nat :=
  if idx.line_bytes ≤ lo + btr then 0 else lo + btr

/-- `IndexedReader::read_line`: one bounded read from the current position.
Returns the kept (base) bytes — `buf[..bytes_to_keep]` — together with the
updated line cursor and the updated source position. -/
def read_line (data : List Nat) (idx : IndexRecord) (pos lo basesLeft bufCap : Nat) :
    Except FErr (List Nat × Nat × Nat) :=
  match readExact data pos (bytesToRead idx lo basesLeft bufCap) with
  | .error e => .error e
  | .ok bytes =>
    .ok (bytes.take (bytesToKeep idx lo basesLeft bufCap),
         nextLineOffset idx lo (bytesToRead idx lo basesLeft bufCap),
         pos + bytesToRead idx lo basesLeft bufCap)

/-- `MAX_FASTA_BUFFER_SIZE`: maximum size of the temporary buffer. -/
def MAX_FASTA_BUFFER_SIZE : Nat := 512

/-- `IndexedReader::buffer_size`. -/
def buffer_size (idx : IndexRecord) (length lineOffset : Nat) : Nat :=
  let bs :=
    if length < idx.line_bytes then
      if idx.line_bases < length + lineOffset ∧ length + lineOffset < idx.line_bytes then
        idx.line_bytes - lineOffset
      else length
    else idx.line_bytes
  min MAX_FASTA_BUFFER_SIZE bs

/-- Result of the `while bases_left > 0` loop of
`IndexedReader::read_into_buffer`: the bytes appended to the output, the
final source position and line cursor, and the error, if any. -/
structure LoopOut where
  acc : List Nat
  pos : Nat
  lo : Nat
  err : Option FErr
  deriving DecidableEq

/-- The `while bases_left > 0` loop of `IndexedReader::read_into_buffer`,
fueled.  Each iteration performs one `read_line`, appends the kept bytes and
decreases `bases_left` by their number. -/
def read_loop (data : List Nat) (idx : IndexRecord) (bufCap : Nat) :
    Nat → Nat → Nat → Nat → LoopOut
  | 0, pos, lo, _ => ⟨[], pos, lo, some .nonTermination⟩
  | fuel+1, pos, lo, basesLeft =>
    if basesLeft = 0 then ⟨[], pos, lo, none⟩
    else
      match read_line data idx pos lo basesLeft bufCap with
      | .error e => ⟨[], pos, lo, some e⟩
      | .ok klp =>
        let r := read_loop data idx bufCap fuel klp.2.2 klp.2.1 (basesLeft - klp.1.length)
        ⟨klp.1 ++ r.acc, r.pos, r.lo, r.err⟩

/-- Observable outcome of one eager read call: the caller's output buffer
after the call, the position of the underlying source, and the error, if
any. -/
structure ReadResult where
  seq : List Nat
  pos : Nat
  err : Option FErr
  deriving DecidableEq

/-- `IndexedReader::read_into_buffer`, with the caller's output buffer
`seq0` and the source cursor `pos0` threaded explicitly so the validation
paths can be seen to leave both untouched.  The fuel of the loop is an upper
bound on its iteration count, proved sufficient below. -/
def read_into_buffer (data : List Nat) (pos0 : Nat) (idx : IndexRecord)
    (start stop : Nat) (seq0 : List Nat) : ReadResult :=
  if stop > idx.len then ⟨seq0, pos0, some .outOfBounds⟩
  else if start > stop then ⟨seq0, pos0, some .invalidRange⟩
  else
    match seek_to idx start with
    | .error e => ⟨seq0, pos0, some e⟩
    | .ok lp =>
      let basesLeft := stop - start
      let bufCap := buffer_size idx basesLeft lp.1
      let r := read_loop data idx bufCap
        (basesLeft * (idx.line_bytes + 1) + idx.line_bytes + 1) lp.2 lp.1 basesLeft
      ⟨r.acc, r.pos, r.err⟩

/-- A FASTA index (`struct Index`).  The `HashMap` is modelled as the
association list of its insertions, newest first, so lookup returns the most
recently inserted binding exactly as `HashMap::insert` / `get` do; `seqs`
records every row name in file order. -/
structure Index where
  inner : List (String × IndexRecord)
  seqs : List String
  deriving DecidableEq

/-- `HashMap::get` on the modelled map (also `IndexedReader::idx` without
the error wrapping). -/
def Index.get (ix : Index) (name : String) : Option IndexRecord :=
  (ix.inner.find? (fun kv => kv.1 == name)).map (fun kv => kv.2)

/-- Decimal digit accumulator for `parseNatField`. -/
def parseNatDigits : List Char → Nat → Option Nat
  | [], acc => some acc
  | c :: cs, acc =>
    if (48 : Nat) ≤ c.toNat ∧ c.toNat ≤ 57 then
      parseNatDigits cs (acc * 10 + (c.toNat - 48))
    else none

/-- Decode of one numeric index field — the `csv` decode of a `u64` field:
at least one character, all decimal digits. -/
def parseNatField (s : String) : Option Nat :=
  match s.data with
  | [] => none
  | c :: cs => parseNatDigits (c :: cs) 0

/-- Decoding one tab-separated index row into `(name, IndexRecord)` — the
`csv` decode of `(String, IndexRecord)`: exactly five fields, the last four
parsing as non-negative integers. -/
def parseRow (row : List String) : Option (String × IndexRecord) :=
  match row with
  | [name, f1, f2, f3, f4] =>
    match parseNatField f1, parseNatField f2, parseNatField f3, parseNatField f4 with
    | some l, some o, some lb, some lB => some (name, ⟨l, o, lb, lB⟩)
    | _, _, _, _ => none
  | _ => none

/-- The row loop of `Index::new`, carrying the partially built index:
each decoded row pushes its name and inserts its record. -/
def indexNewGo : List (List String) → Index → Except FErr Index
  | [], ix => .ok ix
  | row :: rest, ix =>
    match parseRow row with
    | none => .error .malformedIndex
    | some nr => indexNewGo rest ⟨(nr.1, nr.2) :: ix.inner, ix.seqs ++ [nr.1]⟩

/-- `Index::new`.  The textual splitting of the index file into
tab-separated rows is the external collaborator of spec §6, so the input is
the list of rows of fields. -/
def Index.new (rows : List (List String)) : Except FErr Index :=
  indexNewGo rows ⟨[], []⟩

/-- `IndexedReader::read`: resolve the name (`IndexedReader::idx`), then
`read_into_buffer`. -/
def read (data : List Nat) (pos0 : Nat) (ix : Index) (seqname : String)
    (start stop : Nat) (seq0 : List Nat) : ReadResult :=
  match ix.get seqname with
  | none => ⟨seq0, pos0, some .unknownSequence⟩
  | some idx => read_into_buffer data pos0 idx start stop seq0

/-- `IndexedReader::read_all`. -/
def read_all (data : List Nat) (pos0 : Nat) (ix : Index) (seqname : String)
    (seq0 : List Nat) : ReadResult :=
  match ix.get seqname with
  | none => ⟨seq0, pos0, some .unknownSequence⟩
  | some idx => read_into_buffer data pos0 idx 0 idx.len seq0

/-- `struct IndexedReaderIterator`.  Its scratch buffer is modelled by the
kept bytes of the last `read_line` call (only `buf[..buf_len]` is ever
read), so `buf_len = buf.length` throughout; `bufCap` is the capacity the
Rust `Vec` was allocated with. -/
structure IndexedReaderIterator where
  pos : Nat
  record : IndexRecord
  bases_left : Nat
  line_offset : Nat
  buf : List Nat
  buf_idx : Nat
  buf_len : Nat
  bufCap : Nat
  deriving DecidableEq

/-- `IndexedReader::read_into_iter`. -/
def read_into_iter (data : List Nat) (idx : IndexRecord) (start stop : Nat) :
    Except FErr IndexedReaderIterator :=
  if stop > idx.len then .error .outOfBounds
  else if start > stop then .error .invalidRange
  else
    match seek_to idx start with
    | .error e => .error e
    | .ok lp =>
      .ok ⟨lp.2, idx, stop - start, lp.1, [], 0, 0, buffer_size idx (stop - start) lp.1⟩

/-- `IndexedReaderIterator::fill_buffer`, fueled: repeat `read_line` while
`buf_idx == buf_len`.  Returns the updated iterator and the error of the
failing `read_line` call, if any. -/
def fill_buffer (data : List Nat) : Nat → IndexedReaderIterator → IndexedReaderIterator × Option FErr
  | 0, it => (it, some .nonTermination)
  | fuel+1, it =>
    if it.buf_idx = it.buf_len then
      match read_line data it.record it.pos it.line_offset it.bases_left it.bufCap with
      | .error e => (it, some e)
      | .ok klp =>
        fill_buffer data fuel
          { it with pos := klp.2.2, line_offset := klp.2.1, buf := klp.1,
                    buf_idx := 0, buf_len := klp.1.length,
                    bases_left := it.bases_left - klp.1.length }
    else (it, none)

/-- `Iterator::next` for `IndexedReaderIterator`: yields one byte (or an
error), or `none` at end of sequence, together with the updated iterator.
The fill fuel `line_bytes + 2` bounds the number of `read_line` calls one
refill can take; it is proved sufficient below. -/
def IndexedReaderIterator.next (data : List Nat) (it : IndexedReaderIterator) :
    Option (Except FErr Nat) × IndexedReaderIterator :=
  if it.buf_idx < it.buf_len then
    (some (.ok (it.buf.getD it.buf_idx 0)), { it with buf_idx := it.buf_idx + 1 })
  else if 0 < it.bases_left then
    match fill_buffer data (it.record.line_bytes + 2) it with
    | (it1, some e) => (some (.error e), it1)
    | (it1, none) => (some (.ok (it1.buf.getD it1.buf_idx 0)), { it1 with buf_idx := it1.buf_idx + 1 })
  else (none, it)

/-- Concatenate the bytes the iterator yields until it signals end of
sequence, fueled by a bound on the number of `next` calls. -/
def collect (data : List Nat) : Nat → IndexedReaderIterator → Except FErr (List Nat)
  | 0, _ => .error .nonTermination
  | fuel+1, it =>
    match IndexedReaderIterator.next data it with
    | (none, _) => .ok []
    | (some (.error e), _) => .error e
    | (some (.ok b), it1) =>
      match collect data fuel it1 with
      | .error e => .error e
      | .ok rest => .ok (b :: rest)

/-- `IndexedReader::read_iter`. -/
def read_iter (data : List Nat) (ix : Index) (seqname : String) (start stop : Nat) :
    Except FErr IndexedReaderIterator :=
  match ix.get seqname with
  | none => .error .unknownSequence
  | some idx => read_into_iter data idx start stop

/-- `IndexedReader::read_iter_all`. -/
def read_iter_all (data : List Nat) (ix : Index) (seqname : String) :
    Except FErr IndexedReaderIterator :=
  match ix.get seqname with
  | none => .error .unknownSequence
  | some idx => read_into_iter data idx 0 idx.len

/-- Physical byte address of logical base `p` of a record (the coordinate
arithmetic of spec §4.2 and `seek_to`). -/
def bytePos (idx : IndexRecord) (p : Nat) : Nat :=
  idx.offset + p / idx.line_bases * idx.line_bytes + p % idx.line_bases

/-- The bytes of the data file at the physical addresses of logical
positions `start, start+1, …, start+n-1`. -/
def logicalBytes (data : List Nat) (idx : IndexRecord) : Nat → Nat → List Nat
  | _, 0 => []
  | start, n+1 => data.getD (bytePos idx start) 0 :: logicalBytes data idx (start+1) n

/-- Relation between the logical read position `p`, the physical cursor
`pos` and the line cursor `lo` maintained by the chunked read loop: either
the cursor sits on a base of the current line, or it sits inside the
terminator region at the end of the previous physical line with `p` aligned
at a line start. -/
def LoopInv (idx : IndexRecord) (p pos lo : Nat) : Prop :=
  (lo < idx.line_bases ∧ lo = p % idx.line_bases ∧ pos = bytePos idx p)
  ∨ (idx.line_bases ≤ lo ∧ lo < idx.line_bytes ∧ p % idx.line_bases = 0 ∧
     pos + (idx.line_bytes - lo) = idx.offset + p / idx.line_bases * idx.line_bytes)

/-- Termination measure of the chunked read loop. -/
def loopMeasure (idx : IndexRecord) (lo basesLeft : Nat) : Nat :=
  basesLeft * (idx.line_bytes + 1) +
    (if idx.line_bases ≤ lo then idx.line_bytes - lo else 0)

/-- Concrete data file used to exercise the definitions: the bytes of
`"ABC\nDE\n"`, one record of five bases wrapped at three bases per line with
a one-byte terminator. -/
def dataW : List Nat := [65, 66, 67, 10, 68, 69, 10]

/-- Concrete index record describing the record stored in `dataW`. -/
def recW : IndexRecord := ⟨5, 0, 3, 4⟩

/-- Concrete index mapping the name `"s"` to `recW`. -/
def ixW : Index := ⟨[(("s"), recW)], [("s")]⟩

/-- A record with `line_bases = 0`, as the index format permits. -/
def recZ : IndexRecord := ⟨0, 0, 0, 0⟩

/-- Concrete index mapping the name `"z"` to `recZ`. -/
def ixZ : Index := ⟨[(("z"), recZ)], [("z")]⟩

theorem logicalBytes_length (data : List Nat) (idx : IndexRecord) (start n : Nat) :
    (logicalBytes data idx start n).length = n := by
  induction n generalizing start with
  | zero => rfl
  | succ n ih => simp [logicalBytes, ih]

theorem logicalBytes_append (data : List Nat) (idx : IndexRecord) (start a b : Nat) :
    logicalBytes data idx start (a + b) =
      logicalBytes data idx start a ++ logicalBytes data idx (start + a) b := by
  induction a generalizing start with
  | zero => simp [logicalBytes]
  | succ a ih =>
    have h1 : a + 1 + b = (a + b) + 1 := by omega
    have h2 : start + (a + 1) = (start + 1) + a := by omega
    rw [h1]
    simp only [logicalBytes]
    rw [ih, h2]
    rfl

theorem logicalBytes_drop (data : List Nat) (idx : IndexRecord) (start n k : Nat) :
    (logicalBytes data idx start n).drop k = logicalBytes data idx (start + k) (n - k) := by
  induction k generalizing start n with
  | zero => simp
  | succ k ih =>
    cases n with
    | zero => simp [logicalBytes]
    | succ n =>
      simp only [logicalBytes, List.drop_succ_cons, ih]
      have h1 : start + 1 + k = start + (k + 1) := by omega
      have h2 : n - k = n + 1 - (k + 1) := by omega
      rw [h1, h2]

theorem logicalBytes_take (data : List Nat) (idx : IndexRecord) (start n k : Nat) :
    (logicalBytes data idx start n).take k = logicalBytes data idx start (min k n) := by
  induction k generalizing start n with
  | zero => simp [logicalBytes]
  | succ k ih =>
    cases n with
    | zero => simp [logicalBytes]
    | succ n =>
      have h1 : min (k + 1) (n + 1) = (min k n) + 1 := by omega
      simp only [logicalBytes, List.take_succ_cons, ih, h1]

theorem mem_logicalBytes (data : List Nat) (idx : IndexRecord) (start n b : Nat)
    (hb : b ∈ logicalBytes data idx start n) :
    ∃ i, i < n ∧ b = data.getD (bytePos idx (start + i)) 0 := by
  induction n generalizing start with
  | zero => simp [logicalBytes] at hb
  | succ n ih =>
    simp only [logicalBytes, List.mem_cons] at hb
    rcases hb with hb | hb
    · exact ⟨0, by omega, by simpa using hb⟩
    · obtain ⟨i, hi, hbi⟩ := ih (start + 1) hb
      refine ⟨i + 1, by omega, ?_⟩
      have h3 : start + (i + 1) = start + 1 + i := by omega
      rw [h3]
      exact hbi

theorem drop_take_eq_logicalBytes (data : List Nat) (idx : IndexRecord) (pos p k : Nat)
    (haddr : ∀ i, i < k → bytePos idx (p + i) = pos + i)
    (hlen : pos + k ≤ data.length) :
    (data.drop pos).take k = logicalBytes data idx p k := by
  induction k generalizing pos p with
  | zero => simp [logicalBytes]
  | succ k ih =>
    have hpos : pos < data.length := by omega
    rw [List.drop_eq_getElem_cons hpos, List.take_succ_cons]
    simp only [logicalBytes]
    have h0 : bytePos idx p = pos := by simpa using haddr 0 (by omega)
    have hgd : data.getD (bytePos idx p) 0 = data[pos] := by
      rw [h0]
      exact List.getD_eq_getElem data 0 hpos
    rw [hgd]
    congr 1
    apply ih (pos + 1) (p + 1)
    · intro i hi
      have h4 := haddr (i + 1) (by omega)
      have harg : p + (i + 1) = p + 1 + i := by omega
      rw [harg] at h4
      rw [h4]
      omega
    · omega

theorem mod_add_of_lt (lb p i : Nat) (h : p % lb + i < lb) :
    (p + i) % lb = p % lb + i := by
  have hmd := Nat.mod_add_div p lb
  have hp : p + i = (p % lb + i) + lb * (p / lb) := by omega
  rw [hp, Nat.add_mul_mod_self_left, Nat.mod_eq_of_lt h]

theorem div_add_of_lt (lb p i : Nat) (hlb : 0 < lb) (h : p % lb + i < lb) :
    (p + i) / lb = p / lb := by
  have hmd := Nat.mod_add_div p lb
  have hp : p + i = (p % lb + i) + lb * (p / lb) := by omega
  rw [hp, Nat.add_mul_div_left _ _ hlb, Nat.div_eq_of_lt h, Nat.zero_add]

theorem bytePos_add_of_lt (idx : IndexRecord) (p i : Nat)
    (hlb : 0 < idx.line_bases) (h : p % idx.line_bases + i < idx.line_bases) :
    bytePos idx (p + i) = bytePos idx p + i := by
  unfold bytePos
  rw [div_add_of_lt _ _ _ hlb h, mod_add_of_lt _ _ _ h]
  omega

theorem line_end_divmod (lb p lo : Nat) (hlb : 0 < lb) (hlo : lo < lb) (hmod : p % lb = lo) :
    (p + (lb - lo)) % lb = 0 ∧ (p + (lb - lo)) / lb = p / lb + 1 := by
  have hmd := Nat.mod_add_div p lb
  have hp : p + (lb - lo) = lb * (p / lb + 1) := by
    have : lb * (p / lb + 1) = lb * (p / lb) + lb := by ring
    omega
  constructor
  · rw [hp]; exact Nat.mul_mod_right lb _
  · rw [hp]; exact Nat.mul_div_cancel_left _ hlb

theorem bytePos_of_mod_zero (idx : IndexRecord) (p : Nat) (h : p % idx.line_bases = 0) :
    bytePos idx p = idx.offset + p / idx.line_bases * idx.line_bytes := by
  unfold bytePos
  omega

theorem bytesToKeep_le (idx : IndexRecord) (lo basesLeft bufCap : Nat) :
    bytesToKeep idx lo basesLeft bufCap ≤ bytesToRead idx lo basesLeft bufCap := by
  unfold bytesToKeep
  split
  · exact Nat.min_le_left _ _
  · exact Nat.le_refl _

theorem read_line_ok (data : List Nat) (idx : IndexRecord) (pos lo basesLeft bufCap : Nat)
    (kept : List Nat) (lo' pos' : Nat)
    (h : read_line data idx pos lo basesLeft bufCap = .ok (kept, lo', pos')) :
    pos + bytesToRead idx lo basesLeft bufCap ≤ data.length ∧
    kept = (data.drop pos).take (bytesToKeep idx lo basesLeft bufCap) ∧
    lo' = nextLineOffset idx lo (bytesToRead idx lo basesLeft bufCap) ∧
    pos' = pos + bytesToRead idx lo basesLeft bufCap := by
  by_cases hle : pos + bytesToRead idx lo basesLeft bufCap ≤ data.length
  · simp only [read_line, readExact, if_pos hle, Except.ok.injEq, Prod.mk.injEq] at h
    obtain ⟨h1, h2, h3⟩ := h
    refine ⟨hle, ?_, h2.symm, h3.symm⟩
    rw [← h1, List.take_take, Nat.min_eq_left (bytesToKeep_le idx lo basesLeft bufCap)]
  · simp only [read_line, readExact, if_neg hle] at h
    exact Except.noConfusion h

theorem measure_dec_keep (B keep L t t' : Nat) (hk : 1 ≤ keep) (hkB : keep ≤ B) (ht' : t' ≤ L) :
    (B - keep) * (L + 1) + t' < B * (L + 1) + t := by
  have h2 : B - keep + 1 ≤ B := by omega
  have h1 : (B - keep) * (L + 1) + (L + 1) ≤ B * (L + 1) := by
    calc (B - keep) * (L + 1) + (L + 1) = (B - keep + 1) * (L + 1) := by ring
    _ ≤ B * (L + 1) := Nat.mul_le_mul_right _ h2
  omega

theorem loopMeasure_lt_of_pos (idx : IndexRecord) (lo lo' B k : Nat)
    (hk : 0 < k) (hkB : k ≤ B) :
    loopMeasure idx lo' (B - k) < loopMeasure idx lo B := by
  unfold loopMeasure
  apply measure_dec_keep _ _ _ _ _ hk hkB
  split <;> omega

theorem adv_within (idx : IndexRecord) (p pos lo btr : Nat)
    (hlb : 0 < idx.line_bases) (hbb : idx.line_bases ≤ idx.line_bytes)
    (hlo : lo < idx.line_bases) (hmod : lo = p % idx.line_bases)
    (hpos : pos = bytePos idx p) (hbtr : btr ≤ idx.line_bases - lo) :
    LoopInv idx (p + btr) (pos + btr) (nextLineOffset idx lo btr) := by
  unfold bytePos at hpos
  unfold nextLineOffset LoopInv
  by_cases hwrap : idx.line_bytes ≤ lo + btr
  · rw [if_pos hwrap]
    have hb2 : btr = idx.line_bases - lo := by omega
    have heq2 : idx.line_bases = idx.line_bytes := by omega
    obtain ⟨hm, hd⟩ := line_end_divmod idx.line_bases p lo hlb hlo hmod.symm
    rw [hb2] at *
    left
    refine ⟨hlb, hm.symm, ?_⟩
    unfold bytePos
    rw [hm, hd, Nat.succ_mul]
    omega
  · rw [if_neg hwrap]
    by_cases h2 : lo + btr < idx.line_bases
    · left
      have hmod2 : (p + btr) % idx.line_bases = lo + btr := by
        rw [mod_add_of_lt idx.line_bases p btr (by omega)]
        omega
      refine ⟨h2, hmod2.symm, ?_⟩
      rw [bytePos_add_of_lt idx p btr hlb (by omega)]
      unfold bytePos
      omega
    · have hb2 : btr = idx.line_bases - lo := by omega
      obtain ⟨hm, hd⟩ := line_end_divmod idx.line_bases p lo hlb hlo hmod.symm
      rw [hb2] at *
      right
      refine ⟨by omega, by omega, hm, ?_⟩
      rw [hd, Nat.succ_mul]
      omega

theorem adv_cross (idx : IndexRecord) (p pos lo btr : Nat)
    (hlb : 0 < idx.line_bases) (hbb : idx.line_bases ≤ idx.line_bytes)
    (hlo : lo < idx.line_bases) (hmod : lo = p % idx.line_bases)
    (hpos : pos = bytePos idx p)
    (hbtr1 : idx.line_bases - lo < btr) (hbtr2 : btr ≤ idx.line_bytes - lo) :
    LoopInv idx (p + (idx.line_bases - lo)) (pos + btr) (nextLineOffset idx lo btr) := by
  unfold bytePos at hpos
  unfold nextLineOffset LoopInv
  obtain ⟨hm, hd⟩ := line_end_divmod idx.line_bases p lo hlb hlo hmod.symm
  by_cases hwrap : idx.line_bytes ≤ lo + btr
  · rw [if_pos hwrap]
    have hb2 : btr = idx.line_bytes - lo := by omega
    left
    refine ⟨hlb, hm.symm, ?_⟩
    rw [bytePos_of_mod_zero idx _ hm, hd, Nat.succ_mul]
    omega
  · rw [if_neg hwrap]
    right
    refine ⟨by omega, by omega, hm, ?_⟩
    rw [hd, Nat.succ_mul]
    omega

theorem adv_term (idx : IndexRecord) (p pos lo btr : Nat)
    (hlb : 0 < idx.line_bases)
    (h1 : idx.line_bases ≤ lo) (h2 : lo < idx.line_bytes)
    (h3 : p % idx.line_bases = 0)
    (h4 : pos + (idx.line_bytes - lo) = idx.offset + p / idx.line_bases * idx.line_bytes)
    (hbtr : btr ≤ idx.line_bytes - lo) :
    LoopInv idx p (pos + btr) (nextLineOffset idx lo btr) := by
  unfold nextLineOffset LoopInv
  by_cases hwrap : idx.line_bytes ≤ lo + btr
  · rw [if_pos hwrap]
    left
    refine ⟨hlb, h3.symm, ?_⟩
    rw [bytePos_of_mod_zero idx _ h3]
    omega
  · rw [if_neg hwrap]
    right
    exact ⟨by omega, by omega, h3, by omega⟩

theorem read_line_ok_of_le (data : List Nat) (idx : IndexRecord) (pos lo basesLeft bufCap : Nat)
    (hle : pos + bytesToRead idx lo basesLeft bufCap ≤ data.length) :
    read_line data idx pos lo basesLeft bufCap =
      .ok ((data.drop pos).take (bytesToKeep idx lo basesLeft bufCap),
           nextLineOffset idx lo (bytesToRead idx lo basesLeft bufCap),
           pos + bytesToRead idx lo basesLeft bufCap) := by
  simp only [read_line, readExact, if_pos hle]
  rw [List.take_take, Nat.min_eq_left (bytesToKeep_le idx lo basesLeft bufCap)]

theorem step_spec (data : List Nat) (idx : IndexRecord) (p pos lo B cap : Nat)
    (kept : List Nat) (lo' pos' : Nat)
    (hlb : 0 < idx.line_bases) (hbb : idx.line_bases ≤ idx.line_bytes)
    (hinv : LoopInv idx p pos lo) (hB : 0 < B)
    (hok : read_line data idx pos lo B cap = .ok (kept, lo', pos')) :
    kept = logicalBytes data idx p kept.length ∧
    kept.length ≤ B ∧
    LoopInv idx (p + kept.length) pos' lo' ∧
    (0 < cap → loopMeasure idx lo' (B - kept.length) < loopMeasure idx lo B) ∧
    (0 < cap → kept.length = 0 →
      (if idx.line_bases ≤ lo' then idx.line_bytes - lo' else 0) <
      (if idx.line_bases ≤ lo then idx.line_bytes - lo else 0)) := by
  obtain ⟨hle, hkept, hlo', hpos'⟩ := read_line_ok data idx pos lo B cap kept lo' pos' hok
  have hkb := bytesToKeep_le idx lo B cap
  have hklen : kept.length = bytesToKeep idx lo B cap := by
    rw [hkept, List.length_take, List.length_drop]
    omega
  rcases hinv with ⟨h1, h2, h3⟩ | ⟨h1, h2, h3, h4⟩
  · -- the cursor sits on a base of the current line
    have hbol : basesOnLine idx lo = idx.line_bases - lo := by
      unfold basesOnLine
      rw [Nat.min_eq_right (Nat.le_of_lt h1)]
    by_cases hc : basesOnLine idx lo < B
    · -- the request continues past the end of this line
      have hbtr : bytesToRead idx lo B cap = min cap (idx.line_bytes - lo) := by
        unfold bytesToRead
        rw [if_pos hc]
      have hkeepv : bytesToKeep idx lo B cap =
          min (bytesToRead idx lo B cap) (idx.line_bases - lo) := by
        unfold bytesToKeep
        rw [if_pos hc, hbol]
      have hkle : bytesToKeep idx lo B cap ≤ idx.line_bases - lo := by
        rw [hkeepv]
        exact Nat.min_le_right _ _
      have haddr : ∀ i, i < kept.length → bytePos idx (p + i) = pos + i := by
        intro i hi
        rw [h3, bytePos_add_of_lt idx p i hlb (by omega)]
      have hbytes : kept = logicalBytes data idx p kept.length := by
        have h5 := drop_take_eq_logicalBytes data idx pos p kept.length haddr (by omega)
        rw [← h5, hklen]
        exact hkept
      refine ⟨hbytes, by omega, ?_, ?_, ?_⟩
      · rw [hpos', hlo']
        by_cases hsub : bytesToRead idx lo B cap ≤ idx.line_bases - lo
        · have hkeq : kept.length = bytesToRead idx lo B cap := by
            rw [hklen, hkeepv, Nat.min_eq_left hsub]
          rw [hkeq]
          exact adv_within idx p pos lo _ hlb hbb h1 h2 h3 hsub
        · have hkeq : kept.length = idx.line_bases - lo := by
            rw [hklen, hkeepv, Nat.min_eq_right (by omega)]
          rw [hkeq]
          refine adv_cross idx p pos lo _ hlb hbb h1 h2 h3 (by omega) ?_
          rw [hbtr]
          exact Nat.min_le_right _ _
      · intro hcap
        have hk1 : 0 < kept.length := by
          rw [hklen, hkeepv, hbtr]
          omega
        exact loopMeasure_lt_of_pos idx lo lo' B kept.length hk1 (by omega)
      · intro hcap h0
        have hk1 : 0 < kept.length := by
          rw [hklen, hkeepv, hbtr]
          omega
        omega
    · -- the request ends within this line
      have hbtr : bytesToRead idx lo B cap = min cap B := by
        unfold bytesToRead
        rw [if_neg hc]
      have hkeepv : bytesToKeep idx lo B cap = bytesToRead idx lo B cap := by
        unfold bytesToKeep
        rw [if_neg hc]
      have hkle : kept.length ≤ B := by
        rw [hklen, hkeepv, hbtr]
        omega
      have haddr : ∀ i, i < kept.length → bytePos idx (p + i) = pos + i := by
        intro i hi
        rw [h3, bytePos_add_of_lt idx p i hlb (by omega)]
      have hbytes : kept = logicalBytes data idx p kept.length := by
        have h5 := drop_take_eq_logicalBytes data idx pos p kept.length haddr (by omega)
        rw [← h5, hklen]
        exact hkept
      refine ⟨hbytes, hkle, ?_, ?_, ?_⟩
      · rw [hpos', hlo']
        have hkeq : kept.length = bytesToRead idx lo B cap := by rw [hklen, hkeepv]
        rw [hkeq]
        refine adv_within idx p pos lo _ hlb hbb h1 h2 h3 ?_
        rw [hbtr]
        omega
      · intro hcap
        have hk1 : 0 < kept.length := by
          rw [hklen, hkeepv, hbtr]
          omega
        exact loopMeasure_lt_of_pos idx lo lo' B kept.length hk1 hkle
      · intro hcap h0
        have hk1 : 0 < kept.length := by
          rw [hklen, hkeepv, hbtr]
          omega
        omega
  · -- the cursor sits in the terminator region of the previous line
    have hbol : basesOnLine idx lo = 0 := by
      unfold basesOnLine
      rw [Nat.min_eq_left h1]
      omega
    have hc : basesOnLine idx lo < B := by omega
    have hbtr : bytesToRead idx lo B cap = min cap (idx.line_bytes - lo) := by
      unfold bytesToRead
      rw [if_pos hc]
    have hkeepv : bytesToKeep idx lo B cap = 0 := by
      unfold bytesToKeep
      rw [if_pos hc, hbol]
      exact Nat.min_eq_right (Nat.zero_le _)
    have hk0 : kept.length = 0 := by rw [hklen, hkeepv]
    have hnil : kept = [] := List.eq_nil_of_length_eq_zero hk0
    have hbytes : kept = logicalBytes data idx p kept.length := by
      rw [hk0, hnil]
      rfl
    refine ⟨hbytes, by omega, ?_, ?_, ?_⟩
    · rw [hpos', hlo', hk0, Nat.add_zero]
      refine adv_term idx p pos lo _ hlb h1 h2 h3 h4 ?_
      rw [hbtr]
      exact Nat.min_le_right _ _
    · intro hcap
      have hbtrpos : 0 < bytesToRead idx lo B cap := by
        rw [hbtr]
        omega
      rw [hk0, Nat.sub_zero]
      unfold loopMeasure
      have ht : (if idx.line_bases ≤ lo' then idx.line_bytes - lo' else 0) <
          idx.line_bytes - lo := by
        rw [hlo']
        unfold nextLineOffset
        split_ifs <;> omega
      rw [if_pos h1]
      omega
    · intro hcap h0
      have hbtrpos : 0 < bytesToRead idx lo B cap := by
        rw [hbtr]
        omega
      have ht : (if idx.line_bases ≤ lo' then idx.line_bytes - lo' else 0) <
          idx.line_bytes - lo := by
        rw [hlo']
        unfold nextLineOffset
        split_ifs <;> omega
      rw [if_pos h1]
      exact ht

theorem div_mul_add_mod (p lb : Nat) : p / lb * lb + p % lb = p := by
  rw [Nat.mul_comm]
  exact Nat.div_add_mod p lb

theorem step_succeeds (data : List Nat) (idx : IndexRecord) (p pos lo B cap : Nat)
    (hlb : 0 < idx.line_bases) (hbb : idx.line_bases ≤ idx.line_bytes)
    (hinv : LoopInv idx p pos lo) (hB : 0 < B)
    (hdata : bytePos idx (p + B - 1) < data.length) :
    pos + bytesToRead idx lo B cap ≤ data.length := by
  have hmd := div_mul_add_mod p idx.line_bases
  rcases hinv with ⟨h1, h2, h3⟩ | ⟨h1, h2, h3, h4⟩
  · have hbol : basesOnLine idx lo = idx.line_bases - lo := by
      unfold basesOnLine
      rw [Nat.min_eq_right (Nat.le_of_lt h1)]
    by_cases hc : basesOnLine idx lo < B
    · have hbtr : bytesToRead idx lo B cap ≤ idx.line_bytes - lo := by
        unfold bytesToRead
        rw [if_pos hc]
        exact Nat.min_le_right _ _
      have hq : (p / idx.line_bases + 1) * idx.line_bases ≤ p + B - 1 := by
        rw [Nat.succ_mul]
        omega
      have hdivq : p / idx.line_bases + 1 ≤ (p + B - 1) / idx.line_bases := by
        rw [Nat.le_div_iff_mul_le hlb]
        exact hq
      have hmul : (p / idx.line_bases + 1) * idx.line_bytes ≤
          (p + B - 1) / idx.line_bases * idx.line_bytes :=
        Nat.mul_le_mul_right _ hdivq
      have hchain : idx.offset + (p / idx.line_bases + 1) * idx.line_bytes ≤
          bytePos idx (p + B - 1) := by
        unfold bytePos
        omega
      have hposv : pos = idx.offset + p / idx.line_bases * idx.line_bytes + lo := by
        rw [h3]
        unfold bytePos
        omega
      rw [Nat.succ_mul] at hchain
      omega
    · have hbtr : bytesToRead idx lo B cap ≤ B := by
        unfold bytesToRead
        rw [if_neg hc]
        exact Nat.min_le_right _ _
      have hq : bytePos idx (p + (B - 1)) = bytePos idx p + (B - 1) :=
        bytePos_add_of_lt idx p (B - 1) hlb (by omega)
      have harg : p + B - 1 = p + (B - 1) := by omega
      rw [harg, hq, ← h3] at hdata
      omega
  · have hbol : basesOnLine idx lo = 0 := by
      unfold basesOnLine
      rw [Nat.min_eq_left h1]
      omega
    have hc : basesOnLine idx lo < B := by omega
    have hbtr : bytesToRead idx lo B cap ≤ idx.line_bytes - lo := by
      unfold bytesToRead
      rw [if_pos hc]
      exact Nat.min_le_right _ _
    have hdivq : p / idx.line_bases ≤ (p + B - 1) / idx.line_bases :=
      Nat.div_le_div_right (by omega)
    have hmul : p / idx.line_bases * idx.line_bytes ≤
        (p + B - 1) / idx.line_bases * idx.line_bytes :=
      Nat.mul_le_mul_right _ hdivq
    have hchain : idx.offset + p / idx.line_bases * idx.line_bytes ≤
        bytePos idx (p + B - 1) := by
      unfold bytePos
      omega
    omega

theorem read_loop_sound (data : List Nat) (idx : IndexRecord) (cap : Nat)
    (hlb : 0 < idx.line_bases) (hbb : idx.line_bases ≤ idx.line_bytes) :
    ∀ fuel p pos lo B, LoopInv idx p pos lo →
      (read_loop data idx cap fuel pos lo B).err = none →
      (read_loop data idx cap fuel pos lo B).acc = logicalBytes data idx p B := by
  intro fuel
  induction fuel with
  | zero =>
    intro p pos lo B hinv herr
    simp [read_loop] at herr
  | succ fuel ih =>
    intro p pos lo B hinv herr
    by_cases hB0 : B = 0
    · subst hB0
      simp [read_loop, logicalBytes]
    · cases hrl : read_line data idx pos lo B cap with
      | error e =>
        simp only [read_loop, if_neg hB0, hrl] at herr
        exact Option.noConfusion herr
      | ok klp =>
        obtain ⟨kept, lo', pos'⟩ := klp
        obtain ⟨hbytes, hkle, hinv', _, _⟩ :=
          step_spec data idx p pos lo B cap kept lo' pos' hlb hbb hinv (by omega) hrl
        simp only [read_loop, if_neg hB0, hrl] at herr ⊢
        rw [ih (p + kept.length) pos' lo' (B - kept.length) hinv' herr]
        have hsplit := logicalBytes_append data idx p kept.length (B - kept.length)
        have harg : kept.length + (B - kept.length) = B := by omega
        rw [harg] at hsplit
        rw [hsplit, ← hbytes]

theorem read_loop_complete (data : List Nat) (idx : IndexRecord) (cap : Nat)
    (hlb : 0 < idx.line_bases) (hbb : idx.line_bases ≤ idx.line_bytes) (hcap : 0 < cap) :
    ∀ fuel p pos lo B, LoopInv idx p pos lo →
      (0 < B → bytePos idx (p + B - 1) < data.length) →
      loopMeasure idx lo B < fuel →
      (read_loop data idx cap fuel pos lo B).err = none ∧
      (read_loop data idx cap fuel pos lo B).acc = logicalBytes data idx p B := by
  intro fuel
  induction fuel with
  | zero =>
    intro p pos lo B hinv hdata hfuel
    exact absurd hfuel (by omega)
  | succ fuel ih =>
    intro p pos lo B hinv hdata hfuel
    by_cases hB0 : B = 0
    · subst hB0
      simp [read_loop, logicalBytes]
    · have hle := step_succeeds data idx p pos lo B cap hlb hbb hinv (by omega)
        (hdata (by omega))
      have hrl := read_line_ok_of_le data idx pos lo B cap hle
      set kept := (data.drop pos).take (bytesToKeep idx lo B cap) with hkdef
      set lo2 := nextLineOffset idx lo (bytesToRead idx lo B cap) with hlo2def
      set pos2 := pos + bytesToRead idx lo B cap with hpos2def
      obtain ⟨hbytes, hkle, hinv', hmeas, _⟩ :=
        step_spec data idx p pos lo B cap kept lo2 pos2 hlb hbb hinv (by omega) hrl
      have hdata' : 0 < B - kept.length →
          bytePos idx (p + kept.length + (B - kept.length) - 1) < data.length := by
        intro hpos3
        have harg : p + kept.length + (B - kept.length) - 1 = p + B - 1 := by omega
        rw [harg]
        exact hdata (by omega)
      have hfuel' : loopMeasure idx lo2 (B - kept.length) < fuel := by
        have := hmeas hcap
        omega
      obtain ⟨herr', hacc'⟩ := ih (p + kept.length) pos2 lo2 (B - kept.length) hinv' hdata' hfuel'
      simp only [read_loop, if_neg hB0, hrl]
      refine ⟨herr', ?_⟩
      rw [hacc']
      have hsplit := logicalBytes_append data idx p kept.length (B - kept.length)
      have harg : kept.length + (B - kept.length) = B := by omega
      rw [harg] at hsplit
      rw [hsplit, ← hbytes]

theorem buffer_size_pos (idx : IndexRecord) (length lo : Nat)
    (hlen : 0 < length) (hlB : 0 < idx.line_bytes) (hlo : lo < idx.line_bytes) :
    0 < buffer_size idx length lo := by
  simp only [buffer_size, MAX_FASTA_BUFFER_SIZE]
  split_ifs <;> omega

theorem read_into_buffer_eq (data : List Nat) (pos0 : Nat) (idx : IndexRecord)
    (start stop : Nat) (seq0 : List Nat)
    (hlb : 0 < idx.line_bases) (h1 : start ≤ stop) (h2 : stop ≤ idx.len) :
    read_into_buffer data pos0 idx start stop seq0 =
      ⟨(read_loop data idx (buffer_size idx (stop - start) (start % idx.line_bases))
          ((stop - start) * (idx.line_bytes + 1) + idx.line_bytes + 1)
          (bytePos idx start) (start % idx.line_bases) (stop - start)).acc,
       (read_loop data idx (buffer_size idx (stop - start) (start % idx.line_bases))
          ((stop - start) * (idx.line_bytes + 1) + idx.line_bytes + 1)
          (bytePos idx start) (start % idx.line_bases) (stop - start)).pos,
       (read_loop data idx (buffer_size idx (stop - start) (start % idx.line_bases))
          ((stop - start) * (idx.line_bytes + 1) + idx.line_bytes + 1)
          (bytePos idx start) (start % idx.line_bases) (stop - start)).err⟩ := by
  unfold read_into_buffer
  rw [if_neg (by omega), if_neg (by omega)]
  have hseek : seek_to idx start = .ok (start % idx.line_bases, bytePos idx start) := by
    unfold seek_to
    rw [if_neg (by omega), if_neg (by omega)]
    unfold bytePos
    rfl
  rw [hseek]

theorem read_into_buffer_complete (data : List Nat) (pos0 : Nat) (idx : IndexRecord)
    (start stop : Nat) (seq0 : List Nat)
    (hlb : 0 < idx.line_bases) (hbb : idx.line_bases ≤ idx.line_bytes)
    (h1 : start ≤ stop) (h2 : stop ≤ idx.len)
    (hdata : start < stop → bytePos idx (stop - 1) < data.length) :
    (read_into_buffer data pos0 idx start stop seq0).err = none ∧
    (read_into_buffer data pos0 idx start stop seq0).seq =
      logicalBytes data idx start (stop - start) := by
  rw [read_into_buffer_eq data pos0 idx start stop seq0 hlb h1 h2]
  have hmlt : start % idx.line_bases < idx.line_bases := Nat.mod_lt _ hlb
  by_cases hB0 : stop - start = 0
  · rw [hB0]
    simp [read_loop, logicalBytes]
  · have hcap : 0 < buffer_size idx (stop - start) (start % idx.line_bases) :=
      buffer_size_pos idx _ _ (by omega) (by omega) (by omega)
    have hinv : LoopInv idx start (bytePos idx start) (start % idx.line_bases) :=
      Or.inl ⟨hmlt, rfl, rfl⟩
    have hdata' : 0 < stop - start → bytePos idx (start + (stop - start) - 1) < data.length := by
      intro h
      have harg : start + (stop - start) - 1 = stop - 1 := by omega
      rw [harg]
      exact hdata (by omega)
    have hfuel : loopMeasure idx (start % idx.line_bases) (stop - start) <
        (stop - start) * (idx.line_bytes + 1) + idx.line_bytes + 1 := by
      unfold loopMeasure
      rw [if_neg (by omega)]
      omega
    exact read_loop_complete data idx _ hlb hbb hcap _ start _ _ _ hinv hdata' hfuel

theorem read_into_buffer_sound (data : List Nat) (pos0 : Nat) (idx : IndexRecord)
    (start stop : Nat) (seq0 : List Nat)
    (hbb : idx.line_bases ≤ idx.line_bytes)
    (h1 : start ≤ stop) (h2 : stop ≤ idx.len)
    (herr : (read_into_buffer data pos0 idx start stop seq0).err = none) :
    (read_into_buffer data pos0 idx start stop seq0).seq =
      logicalBytes data idx start (stop - start) := by
  by_cases hlb : 0 < idx.line_bases
  · rw [read_into_buffer_eq data pos0 idx start stop seq0 hlb h1 h2] at herr ⊢
    have hmlt : start % idx.line_bases < idx.line_bases := Nat.mod_lt _ hlb
    have hinv : LoopInv idx start (bytePos idx start) (start % idx.line_bases) :=
      Or.inl ⟨hmlt, rfl, rfl⟩
    exact read_loop_sound data idx _ hlb hbb _ start _ _ _ hinv herr
  · exfalso
    unfold read_into_buffer seek_to at herr
    rw [if_neg (by omega), if_neg (by omega), if_neg (by omega), if_pos (by omega)] at herr
    exact Option.noConfusion herr

theorem fill_buffer_step (data : List Nat) (fuelF : Nat) (it : IndexedReaderIterator)
    (kept : List Nat) (lo2 pos2 : Nat)
    (hidx : it.buf_idx = it.buf_len)
    (hrl : read_line data it.record it.pos it.line_offset it.bases_left it.bufCap =
      .ok (kept, lo2, pos2)) :
    fill_buffer data (fuelF + 1) it = fill_buffer data fuelF
      { it with pos := pos2, line_offset := lo2, buf := kept, buf_idx := 0,
                buf_len := kept.length, bases_left := it.bases_left - kept.length } := by
  simp only [fill_buffer, if_pos hidx, hrl]

theorem fill_buffer_done (data : List Nat) (fuelF : Nat) (it : IndexedReaderIterator)
    (h : ¬ it.buf_idx = it.buf_len) :
    fill_buffer data (fuelF + 1) it = (it, none) := by
  simp only [fill_buffer, if_neg h]

theorem next_yield_buf (data : List Nat) (it : IndexedReaderIterator)
    (h : it.buf_idx < it.buf_len) :
    IndexedReaderIterator.next data it =
      (some (.ok (it.buf.getD it.buf_idx 0)), { it with buf_idx := it.buf_idx + 1 }) := by
  simp only [IndexedReaderIterator.next, if_pos h]

theorem next_done (data : List Nat) (it : IndexedReaderIterator)
    (h1 : ¬ it.buf_idx < it.buf_len) (h2 : ¬ 0 < it.bases_left) :
    IndexedReaderIterator.next data it = (none, it) := by
  simp only [IndexedReaderIterator.next, if_neg h1, if_neg h2]

theorem next_refill (data : List Nat) (it it1 : IndexedReaderIterator)
    (h1 : ¬ it.buf_idx < it.buf_len) (h2 : 0 < it.bases_left)
    (hfill : fill_buffer data (it.record.line_bytes + 2) it = (it1, none)) :
    IndexedReaderIterator.next data it =
      (some (.ok (it1.buf.getD it1.buf_idx 0)), { it1 with buf_idx := it1.buf_idx + 1 }) := by
  simp only [IndexedReaderIterator.next, if_neg h1, if_pos h2, hfill]

theorem collect_succ (data : List Nat) (fuel : Nat) (it : IndexedReaderIterator) :
    collect data (fuel + 1) it =
      match IndexedReaderIterator.next data it with
      | (none, _) => .ok []
      | (some (.error e), _) => .error e
      | (some (.ok b), it1) =>
        match collect data fuel it1 with
        | .error e => .error e
        | .ok rest => .ok (b :: rest) := rfl

theorem fill_buffer_spec (data : List Nat) (idx : IndexRecord)
    (hlb : 0 < idx.line_bases) (hbb : idx.line_bases ≤ idx.line_bytes) :
    ∀ fuelF it p, it.record = idx → 0 < it.bufCap →
      it.buf_idx = it.buf_len →
      LoopInv idx p it.pos it.line_offset →
      0 < it.bases_left →
      bytePos idx (p + it.bases_left - 1) < data.length →
      (if idx.line_bases ≤ it.line_offset then idx.line_bytes - it.line_offset else 0) + 2 ≤ fuelF →
      ∃ it1 k, fill_buffer data fuelF it = (it1, none) ∧
        0 < k ∧ k ≤ it.bases_left ∧
        it1.record = idx ∧ it1.bufCap = it.bufCap ∧
        it1.buf = logicalBytes data idx p k ∧
        it1.buf_idx = 0 ∧ it1.buf_len = k ∧
        it1.bases_left = it.bases_left - k ∧
        LoopInv idx (p + k) it1.pos it1.line_offset := by
  intro fuelF
  induction fuelF with
  | zero =>
    intro it p _ _ _ _ _ _ hfuel
    exact absurd hfuel (by omega)
  | succ fuelF ih =>
    intro it p hrec hcap hidx hinv hB hdata hfuel
    have hinv2 : LoopInv idx p it.pos it.line_offset := hinv
    rw [← hrec] at hinv2
    have hle : it.pos + bytesToRead it.record it.line_offset it.bases_left it.bufCap ≤
        data.length := by
      rw [hrec]
      exact step_succeeds data idx p it.pos it.line_offset it.bases_left it.bufCap hlb hbb
        hinv hB hdata
    have hrl := read_line_ok_of_le data it.record it.pos it.line_offset it.bases_left it.bufCap hle
    set kept := (data.drop it.pos).take
      (bytesToKeep it.record it.line_offset it.bases_left it.bufCap) with hkdef
    set lo2 := nextLineOffset it.record it.line_offset
      (bytesToRead it.record it.line_offset it.bases_left it.bufCap) with hlo2def
    set pos2 := it.pos + bytesToRead it.record it.line_offset it.bases_left it.bufCap with hpos2def
    have hrlidx : read_line data idx it.pos it.line_offset it.bases_left it.bufCap =
        .ok (kept, lo2, pos2) := by
      rw [← hrec]
      exact hrl
    obtain ⟨hbytes, hkle, hinv', hmeas, hzero⟩ :=
      step_spec data idx p it.pos it.line_offset it.bases_left it.bufCap kept lo2 pos2
        hlb hbb hinv hB hrlidx
    rw [fill_buffer_step data fuelF it kept lo2 pos2 hidx hrl]
    by_cases hk0 : kept.length = 0
    · have hdec := hzero hcap hk0
      have hinv'' : LoopInv idx p pos2 lo2 := by
        rw [hk0, Nat.add_zero] at hinv'
        exact hinv'
      obtain ⟨it1, k, hfill, hk, hkB, hr1, hc1, hb1, hi1, hl1, hbl1, hinv1⟩ :=
        ih { it with pos := pos2, line_offset := lo2, buf := kept, buf_idx := 0,
                     buf_len := kept.length, bases_left := it.bases_left - kept.length } p
          hrec hcap (show (0 : Nat) = kept.length from hk0.symm) hinv''
          (show 0 < it.bases_left - kept.length by omega)
          (show bytePos idx (p + (it.bases_left - kept.length) - 1) < data.length by
            rw [hk0]
            simpa using hdata)
          (show (if idx.line_bases ≤ lo2 then idx.line_bytes - lo2 else 0) + 2 ≤ fuelF by
            omega)
      have hkB2 : k ≤ it.bases_left - kept.length := hkB
      have hbl2 : it1.bases_left = (it.bases_left - kept.length) - k := hbl1
      refine ⟨it1, k, hfill, hk, by omega, hr1, hc1, hb1, hi1, hl1, by omega, hinv1⟩
    · obtain ⟨fuelF2, rfl⟩ : ∃ m, fuelF = m + 1 := ⟨fuelF - 1, by omega⟩
      refine ⟨_, kept.length, fill_buffer_done data fuelF2 _ (by intro h; exact hk0 h.symm),
        by omega, hkle, hrec, rfl, hbytes, rfl, rfl, rfl, hinv'⟩

theorem collect_spec (data : List Nat) (idx : IndexRecord)
    (hlb : 0 < idx.line_bases) (hbb : idx.line_bases ≤ idx.line_bytes) :
    ∀ fuel it p, it.record = idx →
      (it.bases_left = 0 ∨ 0 < it.bufCap) →
      LoopInv idx p it.pos it.line_offset →
      it.buf_len = it.buf.length →
      it.buf_idx ≤ it.buf_len →
      (it.bases_left = 0 ∨ bytePos idx (p + it.bases_left - 1) < data.length) →
      (it.buf_len - it.buf_idx) + it.bases_left < fuel →
      collect data fuel it =
        .ok (it.buf.drop it.buf_idx ++ logicalBytes data idx p it.bases_left) := by
  intro fuel
  induction fuel with
  | zero =>
    intro it p _ _ _ _ _ _ hfuel
    exact absurd hfuel (by omega)
  | succ fuel ih =>
    intro it p hrec hcap hinv hbl hbi hdata hfuel
    by_cases hlt : it.buf_idx < it.buf_len
    · have hih : collect data fuel { it with buf_idx := it.buf_idx + 1 } =
          .ok (it.buf.drop (it.buf_idx + 1) ++ logicalBytes data idx p it.bases_left) :=
        ih { it with buf_idx := it.buf_idx + 1 } p hrec hcap hinv hbl
          (show it.buf_idx + 1 ≤ it.buf_len by omega) hdata
          (show (it.buf_len - (it.buf_idx + 1)) + it.bases_left < fuel by omega)
      have hdrop : it.buf.drop it.buf_idx =
          it.buf.getD it.buf_idx 0 :: it.buf.drop (it.buf_idx + 1) := by
        have hlen : it.buf_idx < it.buf.length := by omega
        rw [List.drop_eq_getElem_cons hlen, List.getD_eq_getElem it.buf 0 hlen]
      simp only [collect_succ, next_yield_buf data it hlt, hih, hdrop, List.cons_append]
    · by_cases hz : 0 < it.bases_left
      · have hbe : it.buf_idx = it.buf_len := by omega
        have hcap2 : 0 < it.bufCap := by
          rcases hcap with h | h
          · omega
          · exact h
        have hdata2 : bytePos idx (p + it.bases_left - 1) < data.length := by
          rcases hdata with h | h
          · omega
          · exact h
        obtain ⟨it1, k, hfill, hk, hkB, hr1, hc1, hb1, hi1, hl1, hbl1, hinv1⟩ :=
          fill_buffer_spec data idx hlb hbb (idx.line_bytes + 2) it p hrec hcap2 hbe hinv hz
            hdata2 (by split_ifs <;> omega)
        have hfill2 : fill_buffer data (it.record.line_bytes + 2) it = (it1, none) := by
          rw [hrec]
          exact hfill
        obtain ⟨k2, rfl⟩ : ∃ m, k = m + 1 := ⟨k - 1, by omega⟩
        have hbhead : it1.buf.getD it1.buf_idx 0 = data.getD (bytePos idx p) 0 := by
          rw [hi1, hb1]
          rfl
        have hih : collect data fuel { it1 with buf_idx := it1.buf_idx + 1 } =
            .ok (it1.buf.drop (it1.buf_idx + 1) ++
                 logicalBytes data idx (p + (k2 + 1)) it1.bases_left) :=
          ih { it1 with buf_idx := it1.buf_idx + 1 } (p + (k2 + 1)) hr1
            (Or.inr (show 0 < it1.bufCap by rw [hc1]; exact hcap2))
            hinv1
            (show it1.buf_len = it1.buf.length by rw [hl1, hb1, logicalBytes_length])
            (show it1.buf_idx + 1 ≤ it1.buf_len by omega)
            (by
              by_cases hz2 : it1.bases_left = 0
              · exact Or.inl hz2
              · right
                have harg : p + (k2 + 1) + it1.bases_left - 1 = p + it.bases_left - 1 := by
                  omega
                rw [harg]
                exact hdata2)
            (show (it1.buf_len - (it1.buf_idx + 1)) + it1.bases_left < fuel by omega)
        have hnil : it.buf.drop it.buf_idx = [] := List.drop_eq_nil_of_le (by omega)
        have hdrop1 : it1.buf.drop (it1.buf_idx + 1) = logicalBytes data idx (p + 1) k2 := by
          rw [hi1, hb1, logicalBytes_drop]
          have h01 : (0 : Nat) + 1 = 1 := rfl
          rw [h01]
          have harg : k2 + 1 - 1 = k2 := by omega
          rw [harg]
        have hsplit := logicalBytes_append data idx p (k2 + 1) (it.bases_left - (k2 + 1))
        have harg2 : (k2 + 1) + (it.bases_left - (k2 + 1)) = it.bases_left := by omega
        rw [harg2] at hsplit
        rw [hdrop1, hbl1] at hih
        simp only [collect_succ, next_refill data it it1 hlt hz hfill2, hih, hbhead,
          hbl1, hnil, List.nil_append, hsplit, logicalBytes, List.cons_append]
      · have hbe : it.buf_idx = it.buf_len := by omega
        have hz0 : it.bases_left = 0 := by omega
        have hnil : it.buf.drop it.buf_idx = [] := List.drop_eq_nil_of_le (by omega)
        simp only [collect_succ, next_done data it hlt (by omega), hnil, hz0,
          List.nil_append, logicalBytes]

theorem seek_to_ok (idx : IndexRecord) (start : Nat)
    (hlb : 0 < idx.line_bases) (hs : start ≤ idx.len) :
    seek_to idx start = .ok (start % idx.line_bases, bytePos idx start) := by
  unfold seek_to
  rw [if_neg (by omega), if_neg (by omega)]
  unfold bytePos
  rfl

theorem read_into_iter_eq (data : List Nat) (idx : IndexRecord) (start stop : Nat)
    (hlb : 0 < idx.line_bases) (h1 : start ≤ stop) (h2 : stop ≤ idx.len) :
    read_into_iter data idx start stop =
      .ok ⟨bytePos idx start, idx, stop - start, start % idx.line_bases, [], 0, 0,
           buffer_size idx (stop - start) (start % idx.line_bases)⟩ := by
  unfold read_into_iter
  rw [if_neg (by omega), if_neg (by omega), seek_to_ok idx start hlb (by omega)]

theorem read_iter_collect_spec (data : List Nat) (idx : IndexRecord) (start stop : Nat)
    (hlb : 0 < idx.line_bases) (hbb : idx.line_bases ≤ idx.line_bytes)
    (h1 : start ≤ stop) (h2 : stop ≤ idx.len)
    (hdata : start < stop → bytePos idx (stop - 1) < data.length) :
    ∃ it, read_into_iter data idx start stop = .ok it ∧
      collect data (stop - start + 1) it =
        .ok (logicalBytes data idx start (stop - start)) := by
  refine ⟨_, read_into_iter_eq data idx start stop hlb h1 h2, ?_⟩
  have hmlt : start % idx.line_bases < idx.line_bases := Nat.mod_lt _ hlb
  have hcol := collect_spec data idx hlb hbb (stop - start + 1)
    ⟨bytePos idx start, idx, stop - start, start % idx.line_bases, [], 0, 0,
     buffer_size idx (stop - start) (start % idx.line_bases)⟩ start
    rfl
    (by
      by_cases hB0 : stop - start = 0
      · exact Or.inl hB0
      · exact Or.inr (buffer_size_pos idx _ _ (by omega) (by omega) (by omega)))
    (Or.inl ⟨hmlt, rfl, rfl⟩)
    rfl
    (Nat.le_refl _)
    (by
      by_cases hB0 : stop - start = 0
      · exact Or.inl hB0
      · right
        have harg : start + (stop - start) - 1 = stop - 1 := by omega
        rw [harg]
        exact hdata (by omega))
    (show 0 - 0 + (stop - start) < stop - start + 1 by omega)
  simpa using hcol

theorem indexNewGo_error (r : List String) (hr : parseRow r = none) :
    ∀ (rows : List (List String)) (ix0 : Index),
      r ∈ rows → indexNewGo rows ix0 = .error .malformedIndex := by
  intro rows
  induction rows with
  | nil =>
    intro ix0 h
    simp at h
  | cons row rest ih =>
    intro ix0 hmem
    cases hpr : parseRow row with
    | none => simp [indexNewGo, hpr]
    | some nr =>
      simp only [indexNewGo, hpr]
      rcases List.mem_cons.mp hmem with heq | hmem2
      · subst heq
        rw [hpr] at hr
        exact Option.noConfusion hr
      · exact ih _ hmem2

theorem indexNewGo_ok :
    ∀ (rows : List (List String)) (l : List (String × IndexRecord)) (ix0 : Index),
      rows.mapM parseRow = some l →
      indexNewGo rows ix0 =
        .ok ⟨l.reverse ++ ix0.inner, ix0.seqs ++ l.map (fun nr => nr.1)⟩ := by
  intro rows
  induction rows with
  | nil =>
    intro l ix0 hm
    simp only [List.mapM_nil, pure, Option.some.injEq] at hm
    subst hm
    simp [indexNewGo]
  | cons row rest ih =>
    intro l ix0 hm
    rw [List.mapM_cons] at hm
    cases hpr : parseRow row with
    | none =>
      rw [hpr] at hm
      simp at hm
    | some nr =>
      rw [hpr] at hm
      simp only [Option.bind_eq_bind, Option.some_bind, Option.bind_eq_some, pure,
        Option.some.injEq] at hm
      obtain ⟨l2, hrest, hl⟩ := hm
      subst hl
      simp only [indexNewGo, hpr]
      rw [ih l2 _ hrest]
      simp [List.reverse_cons, List.append_assoc]

theorem read_get (data : List Nat) (pos0 : Nat) (ix : Index) (seqname : String)
    (idx : IndexRecord) (start stop : Nat) (seq0 : List Nat)
    (hget : ix.get seqname = some idx) :
    read data pos0 ix seqname start stop seq0 =
      read_into_buffer data pos0 idx start stop seq0 := by
  unfold read
  rw [hget]

theorem read_all_get (data : List Nat) (pos0 : Nat) (ix : Index) (seqname : String)
    (idx : IndexRecord) (seq0 : List Nat)
    (hget : ix.get seqname = some idx) :
    read_all data pos0 ix seqname seq0 = read_into_buffer data pos0 idx 0 idx.len seq0 := by
  unfold read_all
  rw [hget]

theorem read_iter_get (data : List Nat) (ix : Index) (seqname : String)
    (idx : IndexRecord) (start stop : Nat)
    (hget : ix.get seqname = some idx) :
    read_iter data ix seqname start stop = read_into_iter data idx start stop := by
  unfold read_iter
  rw [hget]

theorem read_iter_all_get (data : List Nat) (ix : Index) (seqname : String)
    (idx : IndexRecord)
    (hget : ix.get seqname = some idx) :
    read_iter_all data ix seqname = read_into_iter data idx 0 idx.len := by
  unfold read_iter_all
  rw [hget]

theorem read_unknown (data : List Nat) (pos0 : Nat) (ix : Index) (seqname : String)
    (start stop : Nat) (seq0 : List Nat)
    (hget : ix.get seqname = none) :
    read data pos0 ix seqname start stop seq0 = ⟨seq0, pos0, some .unknownSequence⟩ := by
  unfold read
  rw [hget]

theorem read_iter_unknown (data : List Nat) (ix : Index) (seqname : String)
    (start stop : Nat)
    (hget : ix.get seqname = none) :
    read_iter data ix seqname start stop = .error .unknownSequence := by
  unfold read_iter
  rw [hget]

theorem read_into_buffer_oob (data : List Nat) (pos0 : Nat) (idx : IndexRecord)
    (start stop : Nat) (seq0 : List Nat) (hstop : idx.len < stop) :
    read_into_buffer data pos0 idx start stop seq0 = ⟨seq0, pos0, some .outOfBounds⟩ := by
  unfold read_into_buffer
  rw [if_pos (by omega)]

theorem read_into_buffer_invalid (data : List Nat) (pos0 : Nat) (idx : IndexRecord)
    (start stop : Nat) (seq0 : List Nat) (hsl : stop ≤ idx.len) (hss : stop < start) :
    read_into_buffer data pos0 idx start stop seq0 = ⟨seq0, pos0, some .invalidRange⟩ := by
  unfold read_into_buffer
  rw [if_neg (by omega), if_pos (by omega)]

theorem read_into_iter_oob (data : List Nat) (idx : IndexRecord)
    (start stop : Nat) (hstop : idx.len < stop) :
    read_into_iter data idx start stop = .error .outOfBounds := by
  unfold read_into_iter
  rw [if_pos (by omega)]

theorem read_into_iter_invalid (data : List Nat) (idx : IndexRecord)
    (start stop : Nat) (hsl : stop ≤ idx.len) (hss : stop < start) :
    read_into_iter data idx start stop = .error .invalidRange := by
  unfold read_into_iter
  rw [if_neg (by omega), if_pos (by omega)]

theorem seek_to_div_zero (idx : IndexRecord) (start : Nat)
    (hlb0 : idx.line_bases = 0) (hs : start ≤ idx.len) :
    seek_to idx start = .error .panicDivZero := by
  unfold seek_to
  rw [if_neg (by omega), if_pos hlb0]

theorem read_into_buffer_seek_err (data : List Nat) (pos0 : Nat) (idx : IndexRecord)
    (start stop : Nat) (seq0 : List Nat) (e : FErr)
    (hs1 : start ≤ stop) (hs2 : stop ≤ idx.len)
    (hseek : seek_to idx start = .error e) :
    read_into_buffer data pos0 idx start stop seq0 = ⟨seq0, pos0, some e⟩ := by
  unfold read_into_buffer
  rw [if_neg (by omega), if_neg (by omega), hseek]

theorem read_into_iter_seek_err (data : List Nat) (idx : IndexRecord)
    (start stop : Nat) (e : FErr)
    (hs1 : start ≤ stop) (hs2 : stop ≤ idx.len)
    (hseek : seek_to idx start = .error e) :
    read_into_iter data idx start stop = .error e := by
  unfold read_into_iter
  rw [if_neg (by omega), if_neg (by omega), hseek]

theorem read_into_buffer_empty (data : List Nat) (pos0 : Nat) (idx : IndexRecord)
    (k : Nat) (seq0 : List Nat) (hlb : 0 < idx.line_bases) (hk : k ≤ idx.len) :
    (read_into_buffer data pos0 idx k k seq0).err = none ∧
    (read_into_buffer data pos0 idx k k seq0).seq = [] := by
  rw [read_into_buffer_eq data pos0 idx k k seq0 hlb (Nat.le_refl _) hk]
  have h0 : k - k = 0 := by omega
  rw [h0]
  simp [read_loop]

/-- C1: Range correctness of the eager path — for every index record
satisfying the data-model invariant `line_bases ≤ line_bytes` (spec §3) and
every pair `start ≤ stop ≤ len`, a successful `read(name, start, stop)`
fills the output with exactly the bytes at logical positions `[start, stop)`
of the full sequence a successful `read_all(name)` returns; in particular
the output has length `stop - start`. -/
theorem C1_range_correctness (data : List Nat) (pos0 pos1 : Nat) (ix : Index)
    (seqname : String) (idx : IndexRecord) (start stop : Nat) (seq0 seq1 : List Nat)
    (hget : ix.get seqname = some idx)
    (hbb : idx.line_bases ≤ idx.line_bytes)
    (h1 : start ≤ stop) (h2 : stop ≤ idx.len)
    (hr : (read data pos0 ix seqname start stop seq0).err = none)
    (ha : (read_all data pos1 ix seqname seq1).err = none) :
    (read data pos0 ix seqname start stop seq0).seq =
      ((read_all data pos1 ix seqname seq1).seq.drop start).take (stop - start) ∧
    (read data pos0 ix seqname start stop seq0).seq.length = stop - start := by
  rw [read_get data pos0 ix seqname idx start stop seq0 hget] at hr ⊢
  rw [read_all_get data pos1 ix seqname idx seq1 hget] at ha ⊢
  rw [read_into_buffer_sound data pos0 idx start stop seq0 hbb h1 h2 hr]
  rw [read_into_buffer_sound data pos1 idx 0 idx.len seq1 hbb (Nat.zero_le _) (Nat.le_refl _) ha]
  constructor
  · rw [logicalBytes_drop, logicalBytes_take]
    have h0 : (0 : Nat) + start = start := by omega
    rw [h0]
    congr 1
    omega
  · rw [logicalBytes_length]

/-- C1 witness: the record `"s"` of `dataW`, range `[1, 4)`. -/
theorem C1_range_correctness_witness :
    (read dataW 0 ixW ("s") 1 4 []).seq =
      ((read_all dataW 0 ixW ("s") []).seq.drop 1).take 3 ∧
    (read dataW 0 ixW ("s") 1 4 []).seq.length = 3 :=
  C1_range_correctness dataW 0 0 ixW ("s") recW 1 4 [] [] (by decide) (by decide)
    (by decide) (by decide) (by decide) (by decide)

/-- C5 counterexample: the index format permits `line_bases = 0`; on such a
record `seek_to` panics with a division by zero at the valid position
`start = 0 ≤ len` instead of returning the line offset, refuting the claim
that for every index record the formula never fails for `start ≤ len`. -/
theorem C5_seek_counterexample :
    (0 : Nat) ≤ (IndexRecord.mk 0 0 0 1).len ∧
    seek_to (IndexRecord.mk 0 0 0 1) 0 = .error FErr.panicDivZero :=
  ⟨Nat.le_refl 0, rfl⟩

/-- C5 (amended): for every index record with `line_bases ≥ 1` and every
`start ≤ len`, `seek_to` targets exactly
`offset + (start / line_bases) * line_bytes + start % line_bases` and
returns `start % line_bases` as the initial line cursor; it never fails. -/
theorem C5_seek_arithmetic (idx : IndexRecord) (start : Nat)
    (hlb : 0 < idx.line_bases) (hs : start ≤ idx.len) :
    seek_to idx start = .ok (start % idx.line_bases,
      idx.offset + start / idx.line_bases * idx.line_bytes + start % idx.line_bases) := by
  have h := seek_to_ok idx start hlb hs
  unfold bytePos at h
  exact h

/-- C5 witness: `recW` at `start = 4`. -/
theorem C5_seek_arithmetic_witness :
    seek_to recW 4 = .ok (1, 5) :=
  C5_seek_arithmetic recW 4 (by decide) (by decide)

/-- C6: chunked line reader contract — for a line cursor in
`[0, line_bytes)`, positive remaining bases and a non-empty buffer, a
successful `read_line` advances the source by exactly
`min(buffer_capacity, line_bytes - line_cursor)` bytes in the
line-crossing case (keeping the minimum of that and the bases left on the
line) and by exactly `min(buffer_capacity, bases_remaining)` bytes
otherwise (keeping all of them); it advances the line cursor by the bytes
read, resetting it to 0 on reaching `line_bytes`, and returns the kept
count. -/
theorem C6_read_line_contract (data : List Nat) (idx : IndexRecord)
    (pos lo basesLeft bufCap : Nat) (kept : List Nat) (lo' pos' : Nat)
    (hlo : lo < idx.line_bytes) (hB : 0 < basesLeft) (hcap : 0 < bufCap)
    (hok : read_line data idx pos lo basesLeft bufCap = .ok (kept, lo', pos')) :
    pos' = pos + bytesToRead idx lo basesLeft bufCap ∧
    (basesOnLine idx lo < basesLeft →
      bytesToRead idx lo basesLeft bufCap = min bufCap (idx.line_bytes - lo) ∧
      kept.length = min (min bufCap (idx.line_bytes - lo)) (basesOnLine idx lo)) ∧
    (¬ basesOnLine idx lo < basesLeft →
      bytesToRead idx lo basesLeft bufCap = min bufCap basesLeft ∧
      kept.length = min bufCap basesLeft) ∧
    lo' = (if idx.line_bytes ≤ lo + bytesToRead idx lo basesLeft bufCap then 0
           else lo + bytesToRead idx lo basesLeft bufCap) := by
  obtain ⟨hle, hkept, hlo', hpos'⟩ :=
    read_line_ok data idx pos lo basesLeft bufCap kept lo' pos' hok
  have hkb := bytesToKeep_le idx lo basesLeft bufCap
  have hklen : kept.length = bytesToKeep idx lo basesLeft bufCap := by
    rw [hkept, List.length_take, List.length_drop]
    omega
  refine ⟨hpos', ?_, ?_, hlo'⟩
  · intro hc
    constructor
    · unfold bytesToRead
      rw [if_pos hc]
    · rw [hklen]
      unfold bytesToKeep
      rw [if_pos hc]
      unfold bytesToRead
      rw [if_pos hc]
  · intro hc
    constructor
    · unfold bytesToRead
      rw [if_neg hc]
    · rw [hklen]
      unfold bytesToKeep
      rw [if_neg hc]
      unfold bytesToRead
      rw [if_neg hc]

/-- C6 witness: the first chunk of `dataW` from a line start, crossing the
end of the first physical line. -/
theorem C6_read_line_contract_witness :
    (4 : Nat) = 0 + bytesToRead recW 0 5 4 ∧
    (basesOnLine recW 0 < 5 →
      bytesToRead recW 0 5 4 = min 4 (recW.line_bytes - 0) ∧
      ([65, 66, 67] : List Nat).length = min (min 4 (recW.line_bytes - 0)) (basesOnLine recW 0)) ∧
    (¬ basesOnLine recW 0 < 5 →
      bytesToRead recW 0 5 4 = min 4 5 ∧
      ([65, 66, 67] : List Nat).length = min 4 5) ∧
    (0 : Nat) = (if recW.line_bytes ≤ 0 + bytesToRead recW 0 5 4 then 0
                 else 0 + bytesToRead recW 0 5 4) :=
  C6_read_line_contract dataW recW 0 0 5 4 [65, 66, 67] 0 4 (by decide) (by decide)
    (by decide) rfl

/-- C8: buffer sizing policy — `buffer_size` returns `line_bytes` when the
requested length is at least `line_bytes`; returns
`line_bytes - initial_line_offset` when the requested length is below
`line_bytes` and `length + offset` lies strictly between `line_bases` and
`line_bytes`; returns the requested length otherwise; each result capped at
512 bytes. -/
theorem C8_buffer_size_policy (idx : IndexRecord) (length lineOffset : Nat) :
    buffer_size idx length lineOffset ≤ 512 ∧
    (idx.line_bytes ≤ length →
      buffer_size idx length lineOffset = min 512 idx.line_bytes) ∧
    (length < idx.line_bytes → idx.line_bases < length + lineOffset →
      length + lineOffset < idx.line_bytes →
      buffer_size idx length lineOffset = min 512 (idx.line_bytes - lineOffset)) ∧
    (length < idx.line_bytes →
      (length + lineOffset ≤ idx.line_bases ∨ idx.line_bytes ≤ length + lineOffset) →
      buffer_size idx length lineOffset = min 512 length) := by
  refine ⟨?_, ?_, ?_, ?_⟩
  all_goals simp only [buffer_size, MAX_FASTA_BUFFER_SIZE]
  · split_ifs <;> omega
  · intro h
    rw [if_neg (by omega)]
  · intro h1 h2 h3
    rw [if_pos h1, if_pos ⟨h2, h3⟩]
  · intro h1 h2
    rw [if_pos h1, if_neg (by omega)]

/-- C8 witness: the three branches of the policy, the middle one on a
record with a two-byte terminator. -/
theorem C8_buffer_size_policy_witness :
    buffer_size recW 9 0 ≤ 512 ∧
    buffer_size recW 9 0 = min 512 recW.line_bytes ∧
    buffer_size (IndexRecord.mk 5 0 3 5) 2 2 =
      min 512 ((IndexRecord.mk 5 0 3 5).line_bytes - 2) ∧
    buffer_size recW 2 0 = min 512 2 :=
  ⟨(C8_buffer_size_policy recW 9 0).1,
   (C8_buffer_size_policy recW 9 0).2.1 (by decide),
   (C8_buffer_size_policy (IndexRecord.mk 5 0 3 5) 2 2).2.2.1 (by decide) (by decide)
     (by decide),
   (C8_buffer_size_policy recW 2 0).2.2.2 (by decide) (Or.inl (by decide))⟩

/-- C9: validation errors are atomic — when `read` fails because
`stop > len`, `start > stop` or the name is unknown, the underlying source
position and the caller's output buffer are exactly what they were before
the call. -/
theorem C9_validation_atomicity (data : List Nat) (pos0 : Nat) (ix : Index)
    (seqname other : String) (idx : IndexRecord) (start stop : Nat) (seq0 : List Nat)
    (hget : ix.get seqname = some idx) :
    (ix.get other = none →
      read data pos0 ix other start stop seq0 = ⟨seq0, pos0, some FErr.unknownSequence⟩) ∧
    (idx.len < stop →
      read data pos0 ix seqname start stop seq0 = ⟨seq0, pos0, some FErr.outOfBounds⟩) ∧
    (stop ≤ idx.len → stop < start →
      read data pos0 ix seqname start stop seq0 = ⟨seq0, pos0, some FErr.invalidRange⟩) := by
  refine ⟨?_, ?_, ?_⟩
  · intro hn
    exact read_unknown data pos0 ix other start stop seq0 hn
  · intro hstop
    rw [read_get data pos0 ix seqname idx start stop seq0 hget]
    exact read_into_buffer_oob data pos0 idx start stop seq0 hstop
  · intro hsl hss
    rw [read_get data pos0 ix seqname idx start stop seq0 hget]
    exact read_into_buffer_invalid data pos0 idx start stop seq0 hsl hss

/-- C9 witness: the three failing requests on `dataW`, with a non-empty
prior buffer and a non-zero prior position, both returned unchanged. -/
theorem C9_validation_atomicity_witness :
    read dataW 7 ixW ("t") 0 6 [9] = ⟨[9], 7, some FErr.unknownSequence⟩ ∧
    read dataW 7 ixW ("s") 0 6 [9] = ⟨[9], 7, some FErr.outOfBounds⟩ ∧
    read dataW 7 ixW ("s") 4 3 [9] = ⟨[9], 7, some FErr.invalidRange⟩ := by
  have hA := C9_validation_atomicity dataW 7 ixW ("s") ("t") recW 0 6 [9] (by decide)
  have hB := C9_validation_atomicity dataW 7 ixW ("s") ("t") recW 4 3 [9] (by decide)
  exact ⟨hA.1 (by decide), hA.2.1 (by decide), hB.2.2 (by decide) (by decide)⟩

/-- C10: a record whose `line_bases` field is 0 makes every validated read
panic with the division/remainder by zero of `seek_to` (modelled as the
distinguished outcome `panicDivZero`, distinct from every error value the
code constructs) — for every valid request `start ≤ stop ≤ len`, including
the empty request `start = stop = 0` on a record with `len = 0`, and for
`read_all` / `read_iter_all` unconditionally. -/
theorem C10_line_bases_zero_panics (data : List Nat) (pos0 pos1 : Nat) (ix : Index)
    (seqname : String) (idx : IndexRecord) (start stop : Nat) (seq0 seq1 : List Nat)
    (hget : ix.get seqname = some idx) (hlb0 : idx.line_bases = 0)
    (h1 : start ≤ stop) (h2 : stop ≤ idx.len) :
    (read data pos0 ix seqname start stop seq0).err = some FErr.panicDivZero ∧
    (read_all data pos1 ix seqname seq1).err = some FErr.panicDivZero ∧
    read_iter data ix seqname start stop = .error FErr.panicDivZero ∧
    read_iter_all data ix seqname = .error FErr.panicDivZero := by
  have hseek1 : seek_to idx start = .error .panicDivZero :=
    seek_to_div_zero idx start hlb0 (by omega)
  have hseek0 : seek_to idx 0 = .error .panicDivZero :=
    seek_to_div_zero idx 0 hlb0 (Nat.zero_le _)
  refine ⟨?_, ?_, ?_, ?_⟩
  · rw [read_get data pos0 ix seqname idx start stop seq0 hget]
    rw [read_into_buffer_seek_err data pos0 idx start stop seq0 _ h1 h2 hseek1]
  · rw [read_all_get data pos1 ix seqname idx seq1 hget]
    rw [read_into_buffer_seek_err data pos1 idx 0 idx.len seq1 _ (Nat.zero_le _)
      (Nat.le_refl _) hseek0]
  · rw [read_iter_get data ix seqname idx start stop hget]
    exact read_into_iter_seek_err data idx start stop _ h1 h2 hseek1
  · rw [read_iter_all_get data ix seqname idx hget]
    exact read_into_iter_seek_err data idx 0 idx.len _ (Nat.zero_le _) (Nat.le_refl _) hseek0

/-- C10 witness: the empty request `start = stop = 0` on the `len = 0`,
`line_bases = 0` record `recZ`. -/
theorem C10_line_bases_zero_panics_witness :
    (read [] 0 ixZ ("z") 0 0 []).err = some FErr.panicDivZero ∧
    (read_all [] 0 ixZ ("z") []).err = some FErr.panicDivZero ∧
    read_iter [] ixZ ("z") 0 0 = .error FErr.panicDivZero ∧
    read_iter_all [] ixZ ("z") = .error FErr.panicDivZero :=
  C10_line_bases_zero_panics [] 0 0 ixZ ("z") recZ 0 0 [] [] (by decide) (by decide)
    (by decide) (by decide)

/-- C4: request validation and the empty range — `stop > len` yields the
out-of-bounds error, `start > stop` (with `stop` in bounds) the
invalid-range error, an unknown name the unknown-sequence error, for both
`read` and `read_iter`; at the boundary `stop = len` succeeds (on a
well-formed record whose data source covers it) while `stop = len + 1`
fails; and every `read(name, k, k)` with `k ≤ len` succeeds with an empty
result. -/
theorem C4_validation_and_empty_range (data : List Nat) (pos0 : Nat) (ix : Index)
    (seqname other : String) (idx : IndexRecord) (start stop k : Nat) (seq0 : List Nat)
    (hget : ix.get seqname = some idx) :
    (idx.len < stop →
      (read data pos0 ix seqname start stop seq0).err = some FErr.outOfBounds) ∧
    (stop ≤ idx.len → stop < start →
      (read data pos0 ix seqname start stop seq0).err = some FErr.invalidRange) ∧
    (ix.get other = none →
      (read data pos0 ix other start stop seq0).err = some FErr.unknownSequence) ∧
    (idx.len < stop → read_iter data ix seqname start stop = .error FErr.outOfBounds) ∧
    (stop ≤ idx.len → stop < start →
      read_iter data ix seqname start stop = .error FErr.invalidRange) ∧
    (ix.get other = none →
      read_iter data ix other start stop = .error FErr.unknownSequence) ∧
    (0 < idx.line_bases → idx.line_bases ≤ idx.line_bytes →
      (idx.len = 0 ∨ bytePos idx (idx.len - 1) < data.length) →
      start ≤ idx.len →
      (read data pos0 ix seqname start idx.len seq0).err = none) ∧
    ((read data pos0 ix seqname start (idx.len + 1) seq0).err = some FErr.outOfBounds) ∧
    (0 < idx.line_bases → k ≤ idx.len →
      (read data pos0 ix seqname k k seq0).err = none ∧
      (read data pos0 ix seqname k k seq0).seq = []) := by
  refine ⟨?_, ?_, ?_, ?_, ?_, ?_, ?_, ?_, ?_⟩
  · intro hstop
    rw [read_get data pos0 ix seqname idx start stop seq0 hget]
    rw [read_into_buffer_oob data pos0 idx start stop seq0 hstop]
  · intro hsl hss
    rw [read_get data pos0 ix seqname idx start stop seq0 hget]
    rw [read_into_buffer_invalid data pos0 idx start stop seq0 hsl hss]
  · intro hn
    rw [read_unknown data pos0 ix other start stop seq0 hn]
  · intro hstop
    rw [read_iter_get data ix seqname idx start stop hget]
    exact read_into_iter_oob data idx start stop hstop
  · intro hsl hss
    rw [read_iter_get data ix seqname idx start stop hget]
    exact read_into_iter_invalid data idx start stop hsl hss
  · intro hn
    exact read_iter_unknown data ix other start stop hn
  · intro hlb hbb hD hs
    rw [read_get data pos0 ix seqname idx start idx.len seq0 hget]
    refine (read_into_buffer_complete data pos0 idx start idx.len seq0 hlb hbb hs
      (Nat.le_refl _) ?_).1
    intro hlt
    rcases hD with h | h
    · omega
    · exact h
  · rw [read_get data pos0 ix seqname idx start (idx.len + 1) seq0 hget]
    rw [read_into_buffer_oob data pos0 idx start (idx.len + 1) seq0 (by omega)]
  · intro hlb hk
    rw [read_get data pos0 ix seqname idx k k seq0 hget]
    exact read_into_buffer_empty data pos0 idx k seq0 hlb hk

/-- C4 witness: every part of the validation contract on `dataW`. -/
theorem C4_validation_and_empty_range_witness :
    (read dataW 0 ixW ("s") 0 6 []).err = some FErr.outOfBounds ∧
    (read dataW 0 ixW ("s") 4 3 []).err = some FErr.invalidRange ∧
    (read dataW 0 ixW ("t") 0 6 []).err = some FErr.unknownSequence ∧
    read_iter dataW ixW ("s") 0 6 = .error FErr.outOfBounds ∧
    read_iter dataW ixW ("s") 4 3 = .error FErr.invalidRange ∧
    read_iter dataW ixW ("t") 0 6 = .error FErr.unknownSequence ∧
    (read dataW 0 ixW ("s") 0 5 []).err = none ∧
    (read dataW 0 ixW ("s") 0 6 []).err = some FErr.outOfBounds ∧
    ((read dataW 0 ixW ("s") 2 2 []).err = none ∧
     (read dataW 0 ixW ("s") 2 2 []).seq = []) := by
  have hA := C4_validation_and_empty_range dataW 0 ixW ("s") ("t") recW 0 6 2 [] (by decide)
  have hB := C4_validation_and_empty_range dataW 0 ixW ("s") ("t") recW 4 3 2 [] (by decide)
  exact ⟨hA.1 (by decide), hB.2.1 (by decide) (by decide), hA.2.2.1 (by decide),
    hA.2.2.2.1 (by decide), hB.2.2.2.2.1 (by decide) (by decide),
    hA.2.2.2.2.2.1 (by decide),
    hA.2.2.2.2.2.2.1 (by decide) (by decide) (by decide) (by decide),
    hA.2.2.2.2.2.2.2.1,
    hA.2.2.2.2.2.2.2.2 (by decide) (by decide)⟩

/-- C7 counterexample: two rows with the same name are accepted by
`Index::new` — the result is `ok`, the later row silently overwriting the
earlier one in the map (lookup returns the later record) while the name is
listed twice — refuting the claim that a repeated name is reported as a
malformed-index error. -/
theorem C7_duplicate_counterexample :
    Index.new [[("a"), ("1"), ("2"), ("3"), ("4")], [("a"), ("5"), ("6"), ("7"), ("8")]] =
      .ok ⟨[(("a"), ⟨5, 6, 7, 8⟩), (("a"), ⟨1, 2, 3, 4⟩)], [("a"), ("a")]⟩ ∧
    Index.get ⟨[(("a"), ⟨5, 6, 7, 8⟩), (("a"), ⟨1, 2, 3, 4⟩)], [("a"), ("a")]⟩ ("a") =
      some ⟨5, 6, 7, 8⟩ :=
  ⟨rfl, rfl⟩

/-- C7 (amended): `Index::new` fails with the malformed-index error when a
row cannot be parsed into the five typed fields; when every row parses it
succeeds with last-row-wins semantics — the map holds the rows newest
first, so lookup returns the record of the last row carrying a name, and
the name list records every row name in order (duplicates included). -/
theorem C7_index_new_behaviour (rows : List (List String)) (r : List String)
    (l : List (String × IndexRecord)) :
    (parseRow r = none → r ∈ rows → Index.new rows = .error FErr.malformedIndex) ∧
    (rows.mapM parseRow = some l →
      Index.new rows = .ok ⟨l.reverse, l.map (fun nr => nr.1)⟩) := by
  constructor
  · intro hr hmem
    exact indexNewGo_error r hr rows ⟨[], []⟩ hmem
  · intro hm
    have h := indexNewGo_ok rows l ⟨[], []⟩ hm
    unfold Index.new
    simpa using h

/-- C7 witness: a malformed row is rejected; a two-row index is built with
the expected map and name list. -/
theorem C7_index_new_behaviour_witness :
    Index.new [[("bad")]] = .error FErr.malformedIndex ∧
    Index.new [[("a"), ("1"), ("2"), ("3"), ("4")], [("b"), ("5"), ("6"), ("7"), ("8")]] =
      .ok ⟨[(("b"), ⟨5, 6, 7, 8⟩), (("a"), ⟨1, 2, 3, 4⟩)], [("a"), ("b")]⟩ := by
  have h1 := (C7_index_new_behaviour [[("bad")]] [("bad")] []).1 rfl
    (List.mem_singleton.mpr rfl)
  have h2 := (C7_index_new_behaviour
    [[("a"), ("1"), ("2"), ("3"), ("4")], [("b"), ("5"), ("6"), ("7"), ("8")]]
    [("bad")]
    [(("a"), ⟨1, 2, 3, 4⟩), (("b"), ⟨5, 6, 7, 8⟩)]).2 rfl
  exact ⟨h1, h2⟩

/-- C3: terminator exclusion — over a well-formed data file, formalized by
an arbitrary predicate `P` (such as "is a line-terminator byte") that holds
for no byte stored at a base position of the record, no byte of the output
of a successful eager read and no byte yielded by the lazy iterator
satisfies `P`; this holds because `read_line` never counts terminator bytes
in its kept count, whether the terminator is one or two bytes wide. -/
theorem C3_terminator_exclusion (data : List Nat) (pos0 : Nat) (ix : Index)
    (seqname : String) (idx : IndexRecord) (start stop : Nat) (seq0 : List Nat)
    (P : Nat → Prop)
    (hget : ix.get seqname = some idx)
    (hlb : 0 < idx.line_bases) (hbb : idx.line_bases ≤ idx.line_bytes)
    (h1 : start ≤ stop) (h2 : stop ≤ idx.len)
    (hdata : start < stop → bytePos idx (stop - 1) < data.length)
    (hbase : ∀ q, q < idx.len → ¬ P (data.getD (bytePos idx q) 0)) :
    ((read data pos0 ix seqname start stop seq0).err = none ∧
     ∀ b, b ∈ (read data pos0 ix seqname start stop seq0).seq → ¬ P b) ∧
    (∃ it out, read_iter data ix seqname start stop = .ok it ∧
       collect data (stop - start + 1) it = .ok out ∧
       ∀ b, b ∈ out → ¬ P b) := by
  have hmem : ∀ b, b ∈ logicalBytes data idx start (stop - start) → ¬ P b := by
    intro b hb
    obtain ⟨i, hi, rfl⟩ := mem_logicalBytes data idx start (stop - start) b hb
    exact hbase (start + i) (by omega)
  constructor
  · obtain ⟨he, hs⟩ :=
      read_into_buffer_complete data pos0 idx start stop seq0 hlb hbb h1 h2 hdata
    rw [read_get data pos0 ix seqname idx start stop seq0 hget]
    rw [hs]
    exact ⟨he, hmem⟩
  · obtain ⟨it, hit, hcol⟩ := read_iter_collect_spec data idx start stop hlb hbb h1 h2 hdata
    rw [read_iter_get data ix seqname idx start stop hget]
    exact ⟨it, _, hit, hcol, hmem⟩

/-- C3 witness: no byte of the eager or lazy output of reading all of
`"s"` from `dataW` is the line-feed byte 10. -/
theorem C3_terminator_exclusion_witness :
    ((read dataW 0 ixW ("s") 0 5 []).err = none ∧
     (read dataW 0 ixW ("s") 0 5 []).seq.all (fun b => b != 10) = true) ∧
    (∃ it out, read_iter dataW ixW ("s") 0 5 = .ok it ∧
       collect dataW 6 it = .ok out ∧ out.all (fun b => b != 10) = true) := by
  have h := C3_terminator_exclusion dataW 0 ixW ("s") recW 0 5 [] (fun b => b = 10)
    (by decide) (by decide) (by decide) (by decide) (by decide) (by decide) (by decide)
  constructor
  · refine ⟨h.1.1, ?_⟩
    rw [List.all_eq_true]
    intro b hb
    simpa using h.1.2 b hb
  · obtain ⟨it, out, hit, hcol, hall⟩ := h.2
    refine ⟨it, out, hit, hcol, ?_⟩
    rw [List.all_eq_true]
    intro b hb
    simpa using hall b hb

/-- C2: eager/lazy equivalence — for every valid range of a well-formed
record whose data source covers it, `read_iter` succeeds and concatenating
all bytes its iterator yields (until it signals end of sequence) equals the
buffer the eager `read` fills; likewise `read_iter_all` matches
`read_all`. -/
theorem C2_eager_lazy_equivalence (data : List Nat) (pos0 pos1 : Nat) (ix : Index)
    (seqname : String) (idx : IndexRecord) (start stop : Nat) (seq0 seq1 : List Nat)
    (hget : ix.get seqname = some idx)
    (hlb : 0 < idx.line_bases) (hbb : idx.line_bases ≤ idx.line_bytes)
    (h1 : start ≤ stop) (h2 : stop ≤ idx.len)
    (hdata : start < stop → bytePos idx (stop - 1) < data.length)
    (hD : idx.len = 0 ∨ bytePos idx (idx.len - 1) < data.length) :
    (∃ it out, read_iter data ix seqname start stop = .ok it ∧
       collect data (stop - start + 1) it = .ok out ∧
       (read data pos0 ix seqname start stop seq0).err = none ∧
       (read data pos0 ix seqname start stop seq0).seq = out) ∧
    (∃ it out, read_iter_all data ix seqname = .ok it ∧
       collect data (idx.len + 1) it = .ok out ∧
       (read_all data pos1 ix seqname seq1).err = none ∧
       (read_all data pos1 ix seqname seq1).seq = out) := by
  constructor
  · obtain ⟨it, hit, hcol⟩ := read_iter_collect_spec data idx start stop hlb hbb h1 h2 hdata
    obtain ⟨he, hs⟩ :=
      read_into_buffer_complete data pos0 idx start stop seq0 hlb hbb h1 h2 hdata
    rw [read_get data pos0 ix seqname idx start stop seq0 hget]
    rw [read_iter_get data ix seqname idx start stop hget]
    exact ⟨it, _, hit, hcol, he, hs⟩
  · have hdata0 : 0 < idx.len → bytePos idx (idx.len - 1) < data.length := by
      intro h
      rcases hD with hD | hD
      · omega
      · exact hD
    obtain ⟨it, hit, hcol⟩ := read_iter_collect_spec data idx 0 idx.len hlb hbb
      (Nat.zero_le _) (Nat.le_refl _) hdata0
    obtain ⟨he, hs⟩ := read_into_buffer_complete data pos1 idx 0 idx.len seq1 hlb hbb
      (Nat.zero_le _) (Nat.le_refl _) hdata0
    rw [read_all_get data pos1 ix seqname idx seq1 hget]
    rw [read_iter_all_get data ix seqname idx hget]
    exact ⟨it, _, hit, hcol, he, hs⟩

/-- C2 witness: the range `[1, 4)` of `"s"` in `dataW`, and the whole
record. -/
theorem C2_eager_lazy_equivalence_witness :
    (∃ it out, read_iter dataW ixW ("s") 1 4 = .ok it ∧
       collect dataW 4 it = .ok out ∧
       (read dataW 0 ixW ("s") 1 4 []).err = none ∧
       (read dataW 0 ixW ("s") 1 4 []).seq = out) ∧
    (∃ it out, read_iter_all dataW ixW ("s") = .ok it ∧
       collect dataW 6 it = .ok out ∧
       (read_all dataW 0 ixW ("s") []).err = none ∧
       (read_all dataW 0 ixW ("s") []).seq = out) :=
  C2_eager_lazy_equivalence dataW 0 0 ixW ("s") recW 1 4 [] [] (by decide) (by decide)
    (by decide) (by decide) (by decide) (by decide) (by decide)

end Fasta
